import Mathlib

/-!
Verification development for the Amazon semi-structured knowledge-base
construction and rendering code (src/benchmarks/semistruct/amazon.py and its
callers).  Python strings are modelled as Lean `String` manipulated through
character lists, Python lists as `List`, dicts with integer keys assigned
densely as `List` (position = key) or as association lists, and fallible
Python code as `Except String`.
-/

set_option autoImplicit false

namespace Stark

/-! ## Python string primitives -/

/-- Number of characters of a Python string (`len(s)`). -/
def pyLen (s : String) : Nat := s.toList.length

/-- Python slice `s[:n]`. -/
def strTake (s : String) (n : Nat) : String := String.mk (s.toList.take n)

/-- Python slice `s[n:]`. -/
def strDrop (s : String) (n : Nat) : String := String.mk (s.toList.drop n)

/-- Python slice `s[-n:]` (the last `n` characters, for `n ≤ len(s)`). -/
def strTakeEnd (s : String) (n : Nat) : String :=
  String.mk (s.toList.drop (s.toList.length - n))

/-- Python slice `s[:-n]` (all but the last `n` characters, for `n ≤ len(s)`). -/
def strDropEnd (s : String) (n : Nat) : String :=
  String.mk (s.toList.take (s.toList.length - n))

/-- Python `s.strip(chars)`: remove all leading and trailing characters that
belong to `cs`. -/
def pyStripChars (cs : List Char) (s : String) : String :=
  let l := s.toList.dropWhile (fun c => decide (c ∈ cs))
  String.mk ((l.reverse.dropWhile (fun c => decide (c ∈ cs))).reverse)

/-- Python `needle in haystack` helper: `needle` is a prefix of `hay`. -/
def leadsWith : List Char → List Char → Bool
  | [], _ => true
  | _ :: _, [] => false
  | a :: as, b :: bs => a == b && leadsWith as bs

/-- Python substring membership on character lists. -/
def hasSubList (needle : List Char) : List Char → Bool
  | [] => leadsWith needle []
  | c :: rest => leadsWith needle (c :: rest) || hasSubList needle rest

/-- Python `needle in hay` for strings. -/
def pyContains (needle hay : String) : Bool :=
  hasSubList needle.toList hay.toList

/-- Python `s.lower()` (ASCII-adequate model via `Char.toLower`). -/
def strToLower (s : String) : String := String.mk (s.toList.map Char.toLower)

/-- Python `" ".join`-style join with a separator. -/
def joinSep (sep : String) : List String → String
  | [] => ""
  | [x] => x
  | x :: y :: xs => x ++ sep ++ joinSep sep (y :: xs)

/-- Concatenation of a list of strings (successive `+=` on an accumulator). -/
def strConcat : List String → String
  | [] => ""
  | x :: xs => x ++ strConcat xs

/-! ## Brand normalization (`AmazonSemiStruct._process_brand`) -/

/-- The character set of the Python literal
`" \".*+,-_!@#$%^&*();\/|<>'\t\n\r\\"` in source order (in Python the
unrecognized escape `\/` stands for the two characters backslash, slash). -/
def codeStripChars : List Char :=
  [' ', '"', '.', '*', '+', ',', '-', '_', '!', '@', '#', '$', '%', '^', '&',
   '*', '(', ')', ';', '\\', '/', '|', '<', '>', '\'', '\t', '\n', '\r', '\\']

/-- `AmazonSemiStruct._process_brand` (amazon.py lines 523-533): strip the fixed
punctuation set, then conditionally drop a leading `by `, a trailing `.com`, a
leading `www.`, and finally truncate to the first space-delimited token when
longer than 100 characters (`brand.split(" ")[0]` is the prefix of `brand`
before its first space). -/
def processBrand (b0 : String) : String :=
  let b1 := pyStripChars codeStripChars b0
  let b2 := if 3 < pyLen b1 ∧ strTake b1 3 = "by " then strDrop b1 3 else b1
  let b3 := if 4 < pyLen b2 ∧ strTakeEnd b2 4 = ".com" then strDropEnd b2 4 else b2
  let b4 := if 4 < pyLen b3 ∧ strTake b3 4 = "www." then strDrop b3 4 else b3
  if 100 < pyLen b4 then String.mk (b4.toList.takeWhile (fun c => c ≠ ' ')) else b4

/-- Modelled from the spec: the punctuation/whitespace set listed in section 4.3
step 1, in the spec's order. -/
def specStripChars : List Char :=
  ['"', '.', '*', '+', ',', '-', '_', '!', '@', '#', '$', '%', '^', '&', '*',
   '(', ')', ';', '/', '|', '<', '>', '\'', '\t', '\n', '\r', '\\', ' ']

/-- Modelled from the spec: the five-step `normalize_brand` reference algorithm
of section 4.3, steps applied in the stated order with the stated length
guards. -/
def specNormalizeBrand (s : String) : String :=
  let t1 := pyStripChars specStripChars s
  let t2 := if 3 < pyLen t1 ∧ strTake t1 3 = "by " then strDrop t1 3 else t1
  let t3 := if 4 < pyLen t2 ∧ strTakeEnd t2 4 = ".com" then strDropEnd t2 4 else t2
  let t4 := if 4 < pyLen t3 ∧ strTake t3 4 = "www." then strDrop t3 4 else t3
  if 100 < pyLen t4 then String.mk (t4.toList.takeWhile (fun c => c ≠ ' ')) else t4

theorem specStripChars_mem_iff (c : Char) : c ∈ specStripChars ↔ c ∈ codeStripChars := by
  constructor
  · intro h
    have hall : ∀ x ∈ specStripChars, x ∈ codeStripChars := by decide
    exact hall c h
  · intro h
    have hall : ∀ x ∈ codeStripChars, x ∈ specStripChars := by decide
    exact hall c h

theorem pyStripChars_spec_eq_code (s : String) :
    pyStripChars specStripChars s = pyStripChars codeStripChars s := by
  have hp : (fun c => decide (c ∈ specStripChars)) = (fun c => decide (c ∈ codeStripChars)) := by
    funext c
    exact decide_eq_decide.mpr (specStripChars_mem_iff c)
  simp only [pyStripChars, hp]

/-- A string on which every step of `processBrand` is a no-op: fixed by the
strip step, not matching the `by `/`.com`/`www.` guards, and of length at most
100. -/
def BrandIrreducible (s : String) : Prop :=
  pyStripChars codeStripChars s = s
  ∧ ¬(3 < pyLen s ∧ strTake s 3 = "by ")
  ∧ ¬(4 < pyLen s ∧ strTakeEnd s 4 = ".com")
  ∧ ¬(4 < pyLen s ∧ strTake s 4 = "www.")
  ∧ ¬(100 < pyLen s)

instance (s : String) : Decidable (BrandIrreducible s) := by
  unfold BrandIrreducible; infer_instance

theorem processBrand_fixed {s : String} (h : BrandIrreducible s) : processBrand s = s := by
  obtain ⟨h1, h2, h3, h4, h5⟩ := h
  simp only [processBrand, h1, if_neg h2, if_neg h3, if_neg h4, if_neg h5]

/-- C4 (counterexample): `_process_brand` is not idempotent on all strings: on
`"by .x"` the first application removes `by ` leaving `".x"`, and a second
application strips the now-leading `.`. -/
theorem c4_idempotent_counterexample :
    processBrand (processBrand "by .x") ≠ processBrand "by .x" := by decide

/-- C4 (amended): `_process_brand` is idempotent on every string whose
normalized form is irreducible, i.e. fixed by the strip step, not matching the
`by `/`.com`/`www.` guards, and of length at most 100.  (In general a second
application can normalize further, as the counterexample `"by .x"` shows.) -/
theorem c4_idempotent_amended (s : String) (h : BrandIrreducible (processBrand s)) :
    processBrand (processBrand s) = processBrand s :=
  processBrand_fixed h

/-- C4 (witness): concrete instance of the amended idempotence at
`"by Acme Corp"`. -/
theorem c4_idempotent_amended_witness :
    processBrand (processBrand "by Acme Corp") = processBrand "by Acme Corp" :=
  c4_idempotent_amended "by Acme Corp" (by decide)

/-- C6: `_process_brand` coincides with the spec's five-step reference
definition of `normalize_brand` (section 4.3) on every string, and maps the
three example inputs of Testable Property 3 to the stated outputs. -/
theorem c6_normalize_brand_refines :
    (∀ s : String, specNormalizeBrand s = processBrand s)
    ∧ processBrand "by Acme Corp" = "Acme Corp"
    ∧ processBrand "www.acme.com" = "acme"
    ∧ processBrand "  \"Acme!!\"  " = "Acme" := by
  refine ⟨fun s => ?_, by decide, by decide, by decide⟩
  simp only [specNormalizeBrand, processBrand, pyStripChars_spec_eq_code]

/-! ## Node records for rendering

`construct_raw_node_info` gives every product node the declared meta columns,
initializes `review`/`qa` to lists, and stores `brand` only conditionally;
`dims` stands for the result of the `try` parse of
`node.details.dictionary.product_dimensions.split(" ; ")` into exactly two
parts (`none` when that parse raises, in which case the bare `except`
swallows the error). -/

/-- One review record (the declared review columns used by rendering). -/
structure ReviewRec where
  summary : String
  reviewText : String
  vote : Option String
  deriving DecidableEq

/-- One Q&A record (the declared qa columns used by rendering). -/
structure QARec where
  question : String
  answer : String
  deriving DecidableEq

/-- The attributes of a product node that `get_doc_info`/`get_chunk_info`
read. -/
structure ProductNode where
  title : String
  brand : Option String
  dims : Option (String × String)
  description : List String
  feature : List String
  review : List ReviewRec
  qa : List QARec
  deriving DecidableEq

/-- A node as seen by the renderer: a product node or a synthetic brand node
(whose record holds only `brand_name`). -/
inductive RenderNode where
  | product (p : ProductNode)
  | brandNode (brand_name : String)
  deriving DecidableEq

/-! ## Vote parsing -/

/-- Python whitespace for `int()` argument trimming. -/
def isPyWs (c : Char) : Bool := c == ' ' || c == '\t' || c == '\n' || c == '\r'

/-- Value of a digit list. -/
def digitsVal (ds : List Char) : Nat :=
  ds.foldl (fun acc c => acc * 10 + (c.toNat - '0'.toNat)) 0

/-- Python `int(s)`: optional surrounding whitespace, an optional sign, then a
non-empty digit run; anything else raises `ValueError` (modelled as `none`). -/
def pyInt (s : String) : Option Int :=
  let l := s.toList.dropWhile isPyWs
  let l := (l.reverse.dropWhile isPyWs).reverse
  match l with
  | '-' :: ds => if ds ≠ [] ∧ ds.all Char.isDigit then some (-(digitsVal ds : Int)) else none
  | '+' :: ds => if ds ≠ [] ∧ ds.all Char.isDigit then some (digitsVal ds) else none
  | ds => if ds ≠ [] ∧ ds.all Char.isDigit then some (digitsVal ds) else none

/-- Python `s.replace(",", "")`. -/
def stripCommas (s : String) : String :=
  String.mk (s.toList.filter (fun c => c ≠ ','))

/-- The per-review score `0 if pd.isnull(review["vote"]) else
int(review["vote"].replace(",", ""))` (amazon.py lines 290-293): a `null` vote
scores 0 but a non-numeric vote raises `ValueError`, which nothing catches. -/
def voteScore : Option String → Except String Int
  | none => .ok 0
  | some v =>
    match pyInt (stripCommas v) with
    | some n => .ok n
    | none => .error "ValueError"

/-- The scores list comprehension over a node's reviews, left to right; the
first vote that fails to parse raises. -/
def scoresOf : List ReviewRec → Except String (List Int)
  | [] => .ok []
  | r :: rs =>
    match voteScore r.vote with
    | .error e => .error e
    | .ok n =>
      match scoresOf rs with
      | .error e => .error e
      | .ok l => .ok (n :: l)

/-- `np.argsort(-np.array(scores))`: the review indices sorted by descending
score (tie order among equal scores is not depended on by any theorem; numpy's
default sort is not stable either). -/
def argsortDesc (scores : List Int) : List Nat :=
  List.insertionSort (fun a b => scores.getD b 0 ≤ scores.getD a 0)
    (List.range scores.length)

/-! ## The capped enumeration loop

Both review and Q&A sections run
`for i, x in enumerate(l): emit(x); if i > max_entries: break` —
the entry is emitted before the check, so the loop emits entries for
`i = 0 .. max_entries + 1`. -/

/-- The loop body shared by the review and Q&A sections of `get_doc_info` and
`get_chunk_info`: keep an element, then stop as soon as the 0-based index
exceeds `maxE`. -/
def cappedLoop {α : Type} (maxE : Nat) : Nat → List α → List α
  | _, [] => []
  | i, x :: xs => x :: (if maxE < i then [] else cappedLoop maxE (i + 1) xs)

/-! ## `get_doc_info` (amazon.py lines 259-326) -/

/-- Brand line: emitted only when the node has a `brand` attribute. -/
def docBrandText : Option String → String
  | none => ""
  | some b => "- brand: " ++ b ++ "\n"

/-- Dimensions/weight lines: emitted only when the `try` parse succeeded. -/
def docDimsText : Option (String × String) → String
  | none => ""
  | some dw => "- dimensions: " ++ dw.1 ++ "\n" ++ "- weight: " ++ dw.2 ++ "\n"

/-- Description line: join with spaces, strip spaces, omit when empty. -/
def docDescriptionText (desc : List String) : String :=
  if desc.length = 0 then ""
  else
    let d := pyStripChars [' '] (joinSep " " desc)
    if 0 < pyLen d then "- description: " ++ d ++ "\n" else ""

/-- One feature entry: skipped when empty or containing `asin` in any case;
numbered by its original index. -/
def featureLine (fi : Nat × String) : String :=
  if fi.2 = "" then ""
  else if pyContains "asin" (strToLower fi.2) then ""
  else "#" ++ toString (fi.1 + 1) ++ ": " ++ fi.2 ++ "\n"

/-- The `feature_text` variable of `get_doc_info`: initialized to the header,
filled from the feature list when it is non-empty, and reset to `""` only in
the `else` branch, i.e. only when the feature list itself is empty. -/
def docFeatureText (feats : List String) : String :=
  if feats.length = 0 then ""
  else "- features: \n" ++ strConcat (feats.enum.map featureLine)

/-- One review entry of the reviews section, numbered by the review's original
index `review_idx`. -/
def reviewEntryDoc (reviews : List ReviewRec) (ri : Nat) : String :=
  let r := reviews.getD ri { summary := "", reviewText := "", vote := none }
  "#" ++ toString (ri + 1) ++ ":\n" ++ "summary: " ++ r.summary ++ "\n"
    ++ "text: \"" ++ r.reviewText ++ "\"\n"

/-- The `review_text` variable of `get_doc_info`: empty when there are no
reviews, else the header plus the vote-sorted entries kept by the capped
loop. -/
def docReviewText (maxE : Nat) (reviews : List ReviewRec) : Except String String :=
  if reviews.length = 0 then .ok ""
  else
    match scoresOf reviews with
    | .error e => .error e
    | .ok scores =>
      .ok ("- reviews: \n"
        ++ strConcat ((cappedLoop maxE 0 (argsortDesc scores)).map (reviewEntryDoc reviews)))

/-- One Q&A entry, numbered by its enumeration index. -/
def qaEntryDoc (iq : Nat × QARec) : String :=
  "#" ++ toString (iq.1 + 1) ++ ":\n" ++ "question: \"" ++ iq.2.question ++ "\"\n"
    ++ "answer: \"" ++ iq.2.answer ++ "\"\n"

/-- The `qa_text` variable of `get_doc_info`. -/
def docQAText (maxE : Nat) (qas : List QARec) : String :=
  if qas.length = 0 then ""
  else "- Q&A: \n" ++ strConcat ((cappedLoop maxE 0 qas.enum).map qaEntryDoc)

/-- `get_doc_info` for a node (brand nodes render a single line; product nodes
render title, optional brand, optional dimensions, optional description, then
features, reviews and Q&A).  The relations appendix (`add_rel`) and
`compact_text` compaction are external to the sections modelled here and are
omitted; a non-numeric review vote makes the whole call raise. -/
def amazonGetDocInfo (maxE : Nat) (n : RenderNode) : Except String String :=
  match n with
  | .brandNode bn => .ok ("brand name: " ++ bn)
  | .product node =>
    match docReviewText maxE node.review with
    | .error e => .error e
    | .ok rtext =>
      .ok ("- product: " ++ node.title ++ "\n"
        ++ docBrandText node.brand
        ++ docDimsText node.dims
        ++ docDescriptionText node.description
        ++ docFeatureText node.feature
        ++ rtext
        ++ docQAText maxE node.qa)

/-! ## `get_chunk_info` (amazon.py lines 210-257), review and qa branches -/

/-- One review sentence of the chunk view. -/
def chunkReviewEntry (reviews : List ReviewRec) (ri : Nat) : String :=
  let r := reviews.getD ri { summary := "", reviewText := "", vote := none }
  "The review \"" ++ r.summary ++ "\"" ++ "states that \"" ++ r.reviewText ++ "\". "

/-- The `review` branch of `get_chunk_info`: same vote sort and same capped
loop as the document view, without headers. -/
def chunkReviewText (maxE : Nat) (reviews : List ReviewRec) : Except String String :=
  if reviews.length = 0 then .ok ""
  else
    match scoresOf reviews with
    | .error e => .error e
    | .ok scores =>
      .ok (strConcat ((cappedLoop maxE 0 (argsortDesc scores)).map (chunkReviewEntry reviews)))

/-- One Q&A sentence of the chunk view. -/
def chunkQAEntry (iq : Nat × QARec) : String :=
  "The question is \"" ++ iq.2.question ++ "\", "
    ++ "and the answer is \"" ++ iq.2.answer ++ "\". "

/-- The `qa` branch of `get_chunk_info`: same capped loop, no vote sorting. -/
def chunkQAText (maxE : Nat) (qas : List QARec) : String :=
  if qas.length = 0 then ""
  else strConcat ((cappedLoop maxE 0 qas.enum).map chunkQAEntry)

/-! ## String and list helper lemmas -/

theorem strEmptyAppend (s : String) : "" ++ s = s := rfl

theorem strAppendEmpty (s : String) : s ++ "" = s := by
  cases s with
  | mk d => show String.mk (d ++ []) = String.mk d
            rw [List.append_nil]

theorem strConcat_map_all_empty {α : Type} (f : α → String) :
    ∀ (l : List α), (∀ x ∈ l, f x = "") → strConcat (l.map f) = "" := by
  intro l
  induction l with
  | nil => intro _; rfl
  | cons x xs ih =>
    intro h
    simp only [List.map_cons, strConcat]
    rw [h x (List.mem_cons_self x xs), ih (fun y hy => h y (List.mem_cons_of_mem _ hy))]
    rfl

theorem mem_of_mem_enumFrom {α : Type} :
    ∀ (l : List α) (n : Nat) (p : Nat × α), p ∈ l.enumFrom n → p.2 ∈ l := by
  intro l
  induction l with
  | nil => intro n p h; cases h
  | cons x xs ih =>
    intro n p h
    rcases List.mem_cons.mp h with h | h
    · subst h; exact List.mem_cons_self x xs
    · exact List.mem_cons_of_mem x (ih (n + 1) p h)

theorem cappedLoop_length {α : Type} (maxE : Nat) :
    ∀ (l : List α) (i : Nat), i ≤ maxE + 1 →
      (cappedLoop maxE i l).length = min l.length (maxE + 2 - i) := by
  intro l
  induction l with
  | nil => intro i h; simp [cappedLoop]
  | cons x xs ih =>
    intro i h
    by_cases hc : maxE < i
    · simp only [cappedLoop, if_pos hc, List.length_cons, List.length_nil]
      omega
    · simp only [cappedLoop, if_neg hc, List.length_cons, ih (i + 1) (by omega)]
      omega

theorem argsortDesc_length (scores : List Int) :
    (argsortDesc scores).length = scores.length := by
  unfold argsortDesc
  rw [(List.perm_insertionSort _ _).length_eq, List.length_range]

theorem scoresOf_length :
    ∀ (rs : List ReviewRec) (l : List Int), scoresOf rs = .ok l → l.length = rs.length := by
  intro rs
  induction rs with
  | nil =>
    intro l h
    simp only [scoresOf] at h
    cases h
    rfl
  | cons r rs ih =>
    intro l h
    simp only [scoresOf] at h
    cases hv : voteScore r.vote with
    | error e => rw [hv] at h; cases h
    | ok n =>
      rw [hv] at h
      cases hs : scoresOf rs with
      | error e => rw [hs] at h; cases h
      | ok l2 =>
        rw [hs] at h
        cases h
        simp [ih l2 hs]

theorem scoresOf_ok (rs : List ReviewRec)
    (h : ∀ r ∈ rs, ∃ n, voteScore r.vote = .ok n) : ∃ l, scoresOf rs = .ok l := by
  induction rs with
  | nil => exact ⟨[], rfl⟩
  | cons r rs ih =>
    obtain ⟨n, hn⟩ := h r (List.mem_cons_self r rs)
    obtain ⟨l, hl⟩ := ih (fun x hx => h x (List.mem_cons_of_mem _ hx))
    exact ⟨n :: l, by simp [scoresOf, hn, hl]⟩

/-! ## Claims C1, C2, C5 -/

/-- C1 (counterexample): with `max_entries = 0` and two reviews, the rendered
reviews section shows 2 entries, exceeding the claimed `max_entries + 1`
bound: the check `i > max_entries` fires only after the entry at index
`max_entries + 1` has already been emitted. -/
theorem c1_entry_cap_counterexample :
    ¬ ((cappedLoop 0 0 (argsortDesc [(10 : Int), 2])).length ≤ 0 + 1)
    ∧ docReviewText 0 [⟨"A", "ta", some "10"⟩, ⟨"B", "tb", some "2"⟩]
        = .ok "- reviews: \n#1:\nsummary: A\ntext: \"ta\"\n#2:\nsummary: B\ntext: \"tb\"\n" :=
  ⟨by decide, rfl⟩

/-- C1 (amended): the review and Q&A sections of `get_doc_info` and
`get_chunk_info` show exactly `min(len, max_entries + 2)` entries — the cap
check `i > max_entries` on the 0-based loop index permits `max_entries + 2`
entries, one more than the claimed `max_entries + 1`.  The shown review
entries are `cappedLoop maxE 0 (argsortDesc scores)` and the shown Q&A entries
are `cappedLoop maxE 0 qas.enum`, in both the document and the chunk view. -/
theorem c1_entry_cap_amended (maxE : Nat) (reviews : List ReviewRec)
    (scores : List Int) (qas : List QARec) (h : scoresOf reviews = .ok scores) :
    (cappedLoop maxE 0 (argsortDesc scores)).length = min reviews.length (maxE + 2)
    ∧ (cappedLoop maxE 0 qas.enum).length = min qas.length (maxE + 2) := by
  constructor
  · rw [cappedLoop_length maxE _ 0 (by omega), argsortDesc_length,
      scoresOf_length reviews scores h, Nat.sub_zero]
  · rw [cappedLoop_length maxE _ 0 (by omega), List.enum_length, Nat.sub_zero]

/-- C1 (witness): the amended cap at `max_entries = 0` with three reviews and
one Q&A pair: 2 review entries and 1 Q&A entry are shown. -/
theorem c1_entry_cap_amended_witness :
    (cappedLoop 0 0 (argsortDesc [0, 0, 0])).length
        = min ([⟨"a", "b", none⟩, ⟨"c", "d", none⟩, ⟨"e", "f", none⟩] : List ReviewRec).length (0 + 2)
    ∧ (cappedLoop 0 0 ([⟨"q", "a"⟩] : List QARec).enum).length
        = min ([⟨"q", "a"⟩] : List QARec).length (0 + 2) :=
  c1_entry_cap_amended 0 [⟨"a", "b", none⟩, ⟨"c", "d", none⟩, ⟨"e", "f", none⟩]
    [0, 0, 0] [⟨"q", "a"⟩] rfl

/-- C2 (counterexample): `get_doc_info` raises on a node in range whose single
review has the non-numeric vote string `"abc"`: the comprehension
`int(review["vote"].replace(",", ""))` raises `ValueError` and nothing catches
it. -/
theorem c2_never_raises_counterexample :
    amazonGetDocInfo 25 (.product ⟨"T", none, none, [], [], [⟨"s", "t", some "abc"⟩], []⟩)
      = .error "ValueError" := rfl

/-- C2 (amended): `get_doc_info` returns a string for every node-record shape
— brand and parsed dimensions may be absent, and each absent or empty
attribute contributes no section — provided every review vote is null or a
numeric string (commas allowed); a non-numeric vote raises `ValueError`
(see the counterexample). -/
theorem c2_never_raises_amended (maxE : Nat) (node : ProductNode)
    (h : ∀ r ∈ node.review, ∃ n, voteScore r.vote = .ok n) :
    (∃ s, amazonGetDocInfo maxE (.product node) = .ok s)
    ∧ (∀ bn, amazonGetDocInfo maxE (.brandNode bn) = .ok ("brand name: " ++ bn))
    ∧ (node.brand = none → docBrandText node.brand = "")
    ∧ (node.dims = none → docDimsText node.dims = "")
    ∧ (node.description = [] → docDescriptionText node.description = "")
    ∧ (node.feature = [] → docFeatureText node.feature = "")
    ∧ (node.review = [] → docReviewText maxE node.review = .ok "")
    ∧ (node.qa = [] → docQAText maxE node.qa = "") := by
  have hrev : ∃ t, docReviewText maxE node.review = .ok t := by
    unfold docReviewText
    by_cases h0 : node.review.length = 0
    · rw [if_pos h0]; exact ⟨"", rfl⟩
    · rw [if_neg h0]
      obtain ⟨l, hl⟩ := scoresOf_ok node.review h
      rw [hl]
      exact ⟨_, rfl⟩
  obtain ⟨t, ht⟩ := hrev
  have hmain : amazonGetDocInfo maxE (.product node)
      = .ok ("- product: " ++ node.title ++ "\n"
        ++ docBrandText node.brand ++ docDimsText node.dims
        ++ docDescriptionText node.description ++ docFeatureText node.feature
        ++ t ++ docQAText maxE node.qa) := by
    simp only [amazonGetDocInfo, ht]
  exact ⟨⟨_, hmain⟩, fun bn => rfl, fun hb => by rw [hb]; rfl, fun hd => by rw [hd]; rfl,
    fun hde => by rw [hde]; rfl, fun hf => by rw [hf]; rfl,
    fun hr => by rw [hr]; rfl, fun hq => by rw [hq]; rfl⟩

/-- C2 (witness): the amended theorem at a concrete fully-populated node whose
review vote is the numeric string `"1,000"`. -/
theorem c2_never_raises_amended_witness :
    (∃ s, amazonGetDocInfo 25
        (.product ⟨"T", some "B", some ("2 x 3", "1 lb"), ["d"], ["f"],
          [⟨"s", "t", some "1,000"⟩], [⟨"q", "a"⟩]⟩) = .ok s)
    ∧ (∀ bn, amazonGetDocInfo 25 (.brandNode bn) = .ok ("brand name: " ++ bn))
    ∧ ((some "B" : Option String) = none → docBrandText (some "B") = "")
    ∧ ((some ("2 x 3", "1 lb") : Option (String × String)) = none →
        docDimsText (some ("2 x 3", "1 lb")) = "")
    ∧ ((["d"] : List String) = [] → docDescriptionText ["d"] = "")
    ∧ ((["f"] : List String) = [] → docFeatureText ["f"] = "")
    ∧ (([⟨"s", "t", some "1,000"⟩] : List ReviewRec) = [] →
        docReviewText 25 [⟨"s", "t", some "1,000"⟩] = .ok "")
    ∧ (([⟨"q", "a"⟩] : List QARec) = [] → docQAText 25 [⟨"q", "a"⟩] = "") :=
  c2_never_raises_amended 25
    ⟨"T", some "B", some ("2 x 3", "1 lb"), ["d"], ["f"], [⟨"s", "t", some "1,000"⟩], [⟨"q", "a"⟩]⟩
    (fun r hr => by
      rw [List.mem_singleton.mp hr]
      exact ⟨1000, rfl⟩)

/-- C5 (counterexample): a node whose only feature entry contains `asin` — so
no entries remain after filtering — still renders the bare `- features:`
header line: the `feature_text` variable is reset to the empty string only
when the feature list itself is empty. -/
theorem c5_feature_header_counterexample :
    amazonGetDocInfo 25 (.product ⟨"T", none, none, [], ["asin x"], [], []⟩)
        = .ok "- product: T\n- features: \n"
    ∧ (∀ f ∈ ["asin x"], f = "" ∨ pyContains "asin" (strToLower f) = true) :=
  ⟨rfl, by decide⟩

/-- C5 (amended): the features section (with its header) is omitted exactly
when the feature list itself is empty; when the list is non-empty but every
entry is filtered out (empty, or containing `asin` in any case), the bare
header line `- features:` remains in the document. -/
theorem c5_feature_header_amended (feats : List String) :
    (feats = [] → docFeatureText feats = "")
    ∧ (feats ≠ [] → (∀ f ∈ feats, f = "" ∨ pyContains "asin" (strToLower f) = true) →
        docFeatureText feats = "- features: \n") := by
  constructor
  · intro h; rw [h]; rfl
  · intro hne hall
    unfold docFeatureText
    rw [if_neg (by simpa using hne)]
    have hlines : ∀ fi ∈ feats.enum, featureLine fi = "" := by
      intro fi hfi
      have hmem : fi.2 ∈ feats := mem_of_mem_enumFrom feats 0 fi hfi
      rcases hall fi.2 hmem with h | h
      · simp [featureLine, h]
      · unfold featureLine
        by_cases he : fi.2 = ""
        · rw [if_pos he]
        · rw [if_neg he, if_pos h]
    rw [strConcat_map_all_empty featureLine feats.enum hlines, strAppendEmpty]

/-- C5 (witness): the amended behaviour at the concrete lists `[]` and
`["asin x"]`. -/
theorem c5_feature_header_amended_witness :
    docFeatureText ["asin x"] = "- features: \n" :=
  (c5_feature_header_amended ["asin x"]).2 (by decide) (by decide)

/-! ## Record linking (`_process_raw`, amazon.py lines 423-445)

The pandas pipeline is modelled on the natural-key (asin) sequences of the
row collections: `drop_duplicates(subset="asin", keep="first")` keeps the
first metadata row per key, the inner merge with the review rows followed by
`np.unique` yields the distinct keys present in both collections, and
`df_meta[df_meta["asin"].isin(unique_asin)]` filters the deduplicated
metadata in order; `get_map` then numbers the retained keys by position. -/

/-- `drop_duplicates(keep="first")` on a key sequence. -/
def dropDupKeepFirst (seen : List String) : List String → List String
  | [] => []
  | a :: l =>
    if a ∈ seen then dropDupKeepFirst seen l
    else a :: dropDupKeepFirst (a :: seen) l

/-- Lexicographic character-list comparison used to model numpy's string
sort. -/
def charListLe : List Char → List Char → Bool
  | [], _ => true
  | _ :: _, [] => false
  | a :: as, b :: bs => if a < b then true else if b < a then false else charListLe as bs

/-- String order for `np.unique`. -/
def strLeB (a b : String) : Prop := charListLe a.toList b.toList = true

instance : DecidableRel strLeB := fun a b => by
  unfold strLeB; infer_instance

/-- `np.unique`: the distinct values, sorted (only distinctness and membership
are relied upon below). -/
def sortedUnique (l : List String) : List String :=
  (List.insertionSort strLeB l).dedup

/-- The natural keys retained by `_process_raw`: metadata keys deduplicated
keep-first, then filtered to the keys that also occur in some review row.
Position in this list is the node id assigned by `get_map`. -/
def linkRecords (metaKeys reviewKeys : List String) : List String :=
  let metaDedup := dropDupKeepFirst [] metaKeys
  let merged := reviewKeys.filter (fun a => decide (a ∈ metaDedup))
  let uniqueAsin := sortedUnique merged
  metaDedup.filter (fun a => decide (a ∈ uniqueAsin))

theorem dropDupKeepFirst_subset :
    ∀ (l seen : List String) (x : String), x ∈ dropDupKeepFirst seen l → x ∈ l := by
  intro l
  induction l with
  | nil => intro seen x h; cases h
  | cons a l ih =>
    intro seen x h
    unfold dropDupKeepFirst at h
    by_cases ha : a ∈ seen
    · rw [if_pos ha] at h
      exact List.mem_cons_of_mem a (ih seen x h)
    · rw [if_neg ha] at h
      rcases List.mem_cons.mp h with h | h
      · subst h; exact List.mem_cons_self x l
      · exact List.mem_cons_of_mem a (ih (a :: seen) x h)

theorem dropDupKeepFirst_mem :
    ∀ (l seen : List String) (x : String), x ∈ l → x ∉ seen → x ∈ dropDupKeepFirst seen l := by
  intro l
  induction l with
  | nil => intro seen x h _; cases h
  | cons a l ih =>
    intro seen x h hs
    unfold dropDupKeepFirst
    by_cases ha : a ∈ seen
    · rw [if_pos ha]
      rcases List.mem_cons.mp h with h | h
      · subst h; exact absurd ha hs
      · exact ih seen x h hs
    · rw [if_neg ha]
      rcases List.mem_cons.mp h with h | h
      · subst h; exact List.mem_cons_self x _
      · by_cases hxa : x = a
        · subst hxa; exact List.mem_cons_self x _
        · exact List.mem_cons_of_mem a
            (ih (a :: seen) x h (by simp [hxa, hs]))

theorem dropDupKeepFirst_nodup :
    ∀ (l seen : List String),
      (dropDupKeepFirst seen l).Nodup ∧ ∀ x ∈ dropDupKeepFirst seen l, x ∉ seen := by
  intro l
  induction l with
  | nil => intro seen; exact ⟨List.nodup_nil, fun x h => absurd h (List.not_mem_nil x)⟩
  | cons a l ih =>
    intro seen
    unfold dropDupKeepFirst
    by_cases ha : a ∈ seen
    · rw [if_pos ha]; exact ih seen
    · rw [if_neg ha]
      obtain ⟨hnd, hout⟩ := ih (a :: seen)
      refine ⟨List.nodup_cons.mpr ⟨fun hmem => ?_, hnd⟩, fun x hx => ?_⟩
      · exact (hout a hmem) (List.mem_cons_self a seen)
      · rcases List.mem_cons.mp hx with hx | hx
        · subst hx; exact ha
        · exact fun hxs => (hout x hx) (List.mem_cons_of_mem a hxs)

theorem dropDupKeepFirst_sublist :
    ∀ (l seen : List String), List.Sublist (dropDupKeepFirst seen l) l := by
  intro l
  induction l with
  | nil => intro seen; exact List.Sublist.refl []
  | cons a l ih =>
    intro seen
    unfold dropDupKeepFirst
    by_cases ha : a ∈ seen
    · rw [if_pos ha]; exact (ih seen).cons a
    · rw [if_neg ha]; exact (ih (a :: seen)).cons₂ a

theorem sortedUnique_mem (l : List String) (x : String) : x ∈ sortedUnique l ↔ x ∈ l := by
  unfold sortedUnique
  rw [List.mem_dedup]
  exact (List.perm_insertionSort strLeB l).mem_iff

theorem sortedUnique_nodup (l : List String) : (sortedUnique l).Nodup :=
  List.nodup_dedup _

/-- C7: for every metadata and review key sequence, record linking retains
exactly the keys present in both (first metadata occurrence kept on
duplicates), the retained keys are pairwise distinct (so positions are a
dense id assignment), they appear as a subsequence of the metadata order
(first-seen metadata order), and their number is at most
`min(|metadata|, |review|)`. -/
theorem c7_record_linking (metaKeys reviewKeys : List String) :
    (∀ k ∈ linkRecords metaKeys reviewKeys, k ∈ metaKeys ∧ k ∈ reviewKeys)
    ∧ (∀ k, k ∈ metaKeys → k ∈ reviewKeys → k ∈ linkRecords metaKeys reviewKeys)
    ∧ (linkRecords metaKeys reviewKeys).Nodup
    ∧ List.Sublist (linkRecords metaKeys reviewKeys) metaKeys
    ∧ (linkRecords metaKeys reviewKeys).length ≤ min metaKeys.length reviewKeys.length := by
  unfold linkRecords
  set metaDedup := dropDupKeepFirst [] metaKeys with hmd
  set merged := reviewKeys.filter (fun a => decide (a ∈ metaDedup)) with hmg
  set uniqueAsin := sortedUnique merged with hua
  set retained := metaDedup.filter (fun a => decide (a ∈ uniqueAsin)) with hrt
  have hsub : ∀ k ∈ retained, k ∈ metaKeys ∧ k ∈ reviewKeys := by
    intro k hk
    obtain ⟨hkm, hku⟩ := List.mem_filter.mp hk
    have hku' : k ∈ uniqueAsin := of_decide_eq_true hku
    have hkmerged : k ∈ merged := (sortedUnique_mem merged k).mp hku'
    exact ⟨dropDupKeepFirst_subset metaKeys [] k hkm, (List.mem_filter.mp hkmerged).1⟩
  have hnd : retained.Nodup :=
    (dropDupKeepFirst_nodup metaKeys []).1.filter _
  have hsl : List.Sublist retained metaKeys :=
    (List.filter_sublist metaDedup).trans (dropDupKeepFirst_sublist metaKeys [])
  refine ⟨hsub, ?_, hnd, hsl, ?_⟩
  · intro k hkm hkr
    have hkmd : k ∈ metaDedup :=
      dropDupKeepFirst_mem metaKeys [] k hkm (List.not_mem_nil k)
    have hkmerged : k ∈ merged :=
      List.mem_filter.mpr ⟨hkr, decide_eq_true hkmd⟩
    exact List.mem_filter.mpr
      ⟨hkmd, decide_eq_true ((sortedUnique_mem merged k).mpr hkmerged)⟩
  · have h1 : retained.length ≤ metaKeys.length := hsl.length_le
    have h2 : retained.length ≤ reviewKeys.length := by
      have hss : retained ⊆ reviewKeys := fun k hk => (hsub k hk).2
      exact (hnd.subperm hss).length_le
    omega

/-! ## Category validation (`_process_raw`, amazon.py lines 364-370) -/

/-- The review categories class constant. -/
def REVIEW_CATEGORIES : List String :=
  ["Amazon_Fashion", "All_Beauty", "Appliances", "Arts_Crafts_and_Sewing",
   "Automotive", "Books", "CDs_and_Vinyl", "Cell_Phones_and_Accessories",
   "Clothing_Shoes_and_Jewelry", "Digital_Music", "Electronics", "Gift_Cards",
   "Grocery_and_Gourmet_Food", "Home_and_Kitchen", "Industrial_and_Scientific",
   "Kindle_Store", "Luxury_Beauty", "Magazine_Subscriptions", "Movies_and_TV",
   "Musical_Instruments", "Office_Products", "Patio_Lawn_and_Garden",
   "Pet_Supplies", "Prime_Pantry", "Software", "Sports_and_Outdoors",
   "Tools_and_Home_Improvement", "Toys_and_Games", "Video_Games"]

/-- The qa categories class constant. -/
def QA_CATEGORIES : List String :=
  ["Appliances", "Arts_Crafts_and_Sewing", "Automotive", "Baby", "Beauty",
   "Cell_Phones_and_Accessories", "Clothing_Shoes_and_Jewelry", "Electronics",
   "Grocery_and_Gourmet_Food", "Health_and_Personal_Care", "Home_and_Kitchen",
   "Musical_Instruments", "Office_Products", "Patio_Lawn_and_Garden",
   "Pet_Supplies", "Sports_and_Outdoors", "Tools_and_Home_Improvement",
   "Toys_and_Games", "Video_Games"]

/-- The `COMMON` allow-list class constant, against which requested categories
are checked. -/
def COMMON : List String :=
  ["Appliances", "Arts_Crafts_and_Sewing", "Automotive",
   "Cell_Phones_and_Accessories", "Clothing_Shoes_and_Jewelry", "Electronics",
   "Grocery_and_Gourmet_Food", "Home_and_Kitchen", "Musical_Instruments",
   "Office_Products", "Patio_Lawn_and_Garden", "Pet_Supplies",
   "Sports_and_Outdoors", "Tools_and_Home_Improvement", "Toys_and_Games",
   "Video_Games"]

/-- The category dispatch of `_process_raw`: with `"all"` the full class
constants are used; otherwise `assert len(set(categories) - self.COMMON) == 0`
fails (message `"invalid categories exist"`) unless every requested category
is in `COMMON`. -/
def processRawCategories (categories : List String) :
    Except String (List String × List String) :=
  if "all" ∈ categories then .ok (REVIEW_CATEGORIES, QA_CATEGORIES)
  else if (categories.filter (fun c => decide (c ∉ COMMON))).length = 0 then
    .ok (categories, categories)
  else .error "invalid categories exist"

/-- `_process_raw` on the natural-key sequences of the raw collections: the
category check runs first, before any record is touched; record linking
follows (downloading, node-info construction and the graph build consume the
linked keys and are outside this model). -/
def amazonProcessRaw (categories metaKeys reviewKeys : List String) :
    Except String (List String) :=
  match processRawCategories categories with
  | .error e => .error e
  | .ok _ => .ok (linkRecords metaKeys reviewKeys)

/-- C9: for every category list without `"all"`, construction fails with the
invalid-category assertion exactly when some requested category is outside the
`COMMON` allow-list — independently of the record collections, i.e. before
any record is processed — and passes the check when all requested categories
are allowed. -/
theorem c9_category_validation (cats metaKeys reviewKeys : List String)
    (hall : "all" ∉ cats) :
    ((∃ c ∈ cats, c ∉ COMMON) ↔
      amazonProcessRaw cats metaKeys reviewKeys = .error "invalid categories exist")
    ∧ ((∀ c ∈ cats, c ∈ COMMON) →
      amazonProcessRaw cats metaKeys reviewKeys = .ok (linkRecords metaKeys reviewKeys)) := by
  have hbad : (∃ c ∈ cats, c ∉ COMMON) ↔
      (cats.filter (fun c => decide (c ∉ COMMON))).length ≠ 0 := by
    rw [Ne, List.length_eq_zero, List.filter_eq_nil_iff]
    constructor
    · rintro ⟨c, hc, hnc⟩ hforall
      exact (hforall c hc) (decide_eq_true hnc)
    · intro h
      by_contra hno
      push_neg at hno
      exact h (fun c hc => by simp [hno c hc])
  constructor
  · rw [hbad]
    constructor
    · intro hne
      unfold amazonProcessRaw processRawCategories
      rw [if_neg hall, if_neg hne]
    · intro heq
      intro hzero
      unfold amazonProcessRaw processRawCategories at heq
      rw [if_neg hall, if_pos hzero] at heq
      cases heq
  · intro hok
    have hzero : (cats.filter (fun c => decide (c ∉ COMMON))).length = 0 := by
      by_contra hne
      obtain ⟨c, hc, hnc⟩ := hbad.mpr hne
      exact hnc (hok c hc)
    unfold amazonProcessRaw processRawCategories
    rw [if_neg hall, if_pos hzero]

/-- C9 (witness): `"Books"` is a review category but not in `COMMON`, so
requesting `["Books"]` fails with the invalid-category assertion;
`["Electronics"]` passes. -/
theorem c9_category_validation_witness :
    amazonProcessRaw ["Books"] [] [] = .error "invalid categories exist"
    ∧ amazonProcessRaw ["Electronics"] ["k"] ["k"] = .ok (linkRecords ["k"] ["k"]) :=
  ⟨(c9_category_validation ["Books"] [] [] (by decide)).1.mp ⟨"Books", by decide, by decide⟩,
   (c9_category_validation ["Electronics"] ["k"] ["k"] (by decide)).2 (by decide)⟩

/-! ## Meta-link augmentation (`post_process`, amazon.py lines 471-521)

The graph bundle is modelled with `node_info` as a list indexed by node id
(the Python dict has dense keys `0..n-1` in insertion order and new nodes are
assigned at key `len(node_info)`), the two rows of `edge_index` and the
`edge_types` array as parallel lists, and the two type dictionaries as
association lists in insertion order. -/

/-- The graph bundle handled by `post_process`. -/
structure PPState where
  node_info : List (List (String × String))
  edge_src : List Nat
  edge_dst : List Nat
  edge_types : List Nat
  edge_type_dict : List (Nat × String)
  node_type_dict : List (Nat × String)
  node_types : List Nat
  deriving DecidableEq

/-- Python dict assignment `d[key] = v` on an association list: overwrite in
place when the key is present, else append. -/
def dictSetNat (d : List (Nat × String)) (key : Nat) (v : String) : List (Nat × String) :=
  if d.any (fun kv => kv.1 == key) then
    d.map (fun kv => if kv.1 == key then (key, v) else kv)
  else d ++ [(key, v)]

/-- The parallel numpy arrays `indices`/`values` of `post_process`, fused into
(entity position, `_process_brand` value) pairs over the entities whose record
has attribute `k` (the code applies `_process_brand` for every link type). -/
def metaPairs (ninfo : List (List (String × String))) (k : String) : List (Nat × String) :=
  ninfo.enum.filterMap (fun pr => (pr.2.lookup k).map (fun v => (pr.1, processBrand v)))

/-- The inner loop of `post_process` over the enumerated `np.unique` values:
group `ju = (j, unique_j)` appends the synthetic node record at key
`cur_n_nodes + j` (which is the current length, since exactly one node is
appended per group) and one edge per entity of the group, with
`ids = indices[values == unique_j]`. -/
def ppInner (kname : String) (etype curN : Nat) (pairs : List (Nat × String)) :
    List (Nat × String) → PPState → PPState
  | [], st => st
  | ju :: rest, st =>
    let ids := (pairs.filter (fun pv => pv.2 == ju.2)).map Prod.fst
    ppInner kname etype curN pairs rest
      { st with
        node_info := st.node_info ++ [[(kname, ju.2)]],
        edge_src := st.edge_src ++ ids,
        edge_dst := st.edge_dst ++ List.replicate ids.length (curN + ju.1),
        edge_types := st.edge_types ++ List.replicate ids.length etype }

/-- The two dictionary assignments performed before the inner loop:
`node_type_dict[n_n_types + i] = link_type` and
`edge_type_dict[n_e_types + i] = "has_" + link_type`. -/
def ppDicts (n_e n_n i : Nat) (k : String) (st : PPState) : PPState :=
  { st with
    node_type_dict := dictSetNat st.node_type_dict (n_n + i) k,
    edge_type_dict := dictSetNat st.edge_type_dict (n_e + i) ("has_" ++ k) }

/-- Everything one outer-loop iteration does except the final `node_types`
extension. -/
def ppStepInner (n_e n_n i : Nat) (k : String) (st : PPState) : PPState :=
  ppInner (k ++ "_name") (n_e + i) st.node_info.length (metaPairs st.node_info k)
    (sortedUnique ((metaPairs st.node_info k).map Prod.snd)).enum
    (ppDicts n_e n_n i k st)

/-- One iteration of the outer loop of `post_process` for the kind `k` at
position `i`, with the pre-loop counts `n_e_types`/`n_n_types` captured as
`n_e`/`n_n`; ends with `node_types.extend([n_n_types + i] * len(unique))`. -/
def ppStep (n_e n_n i : Nat) (k : String) (st : PPState) : PPState :=
  { ppStepInner n_e n_n i k st with
    node_types := (ppStepInner n_e n_n i k st).node_types
      ++ List.replicate (sortedUnique ((metaPairs st.node_info k).map Prod.snd)).length
          (n_n + i) }

/-- The outer loop `for i, link_type in enumerate(meta_link_types)`. -/
def ppGo (n_e n_n : Nat) : Nat → List String → PPState → PPState
  | _, [], st => st
  | i, kind :: rest, st => ppGo n_e n_n (i + 1) rest (ppStep n_e n_n i kind st)

/-- `post_process(raw_info, meta_link_types)`: the counts
`n_e_types, n_n_types = len(edge_type_dict), len(node_type_dict)` are captured
once, before the loop. -/
def amazonPostProcess (kinds : List String) (st : PPState) : PPState :=
  ppGo st.edge_type_dict.length st.node_type_dict.length 0 kinds st

/-- The destinations of the edges leaving `p` with edge type `ty`, read off
the three parallel edge arrays. -/
def outDsts (p ty : Nat) : List Nat → List Nat → List Nat → List Nat
  | s :: ss, t :: ts, d :: ds =>
    (if s = p ∧ t = ty then [d] else []) ++ outDsts p ty ss ts ds
  | _, _, _ => []

/-- `outDsts` over a graph bundle. -/
def stOutDsts (st : PPState) (p ty : Nat) : List Nat :=
  outDsts p ty st.edge_src st.edge_types st.edge_dst

/-! ### Helper lemmas about the augmentation loop -/

theorem ppInner_node_type_dict (kn : String) (ety cN : Nat) (pairs : List (Nat × String)) :
    ∀ (gs : List (Nat × String)) (st : PPState),
      (ppInner kn ety cN pairs gs st).node_type_dict = st.node_type_dict := by
  intro gs
  induction gs with
  | nil => intro st; rfl
  | cons ju rest ih => intro st; simp only [ppInner]; rw [ih]

theorem ppInner_edge_type_dict (kn : String) (ety cN : Nat) (pairs : List (Nat × String)) :
    ∀ (gs : List (Nat × String)) (st : PPState),
      (ppInner kn ety cN pairs gs st).edge_type_dict = st.edge_type_dict := by
  intro gs
  induction gs with
  | nil => intro st; rfl
  | cons ju rest ih => intro st; simp only [ppInner]; rw [ih]

theorem ppInner_node_types (kn : String) (ety cN : Nat) (pairs : List (Nat × String)) :
    ∀ (gs : List (Nat × String)) (st : PPState),
      (ppInner kn ety cN pairs gs st).node_types = st.node_types := by
  intro gs
  induction gs with
  | nil => intro st; rfl
  | cons ju rest ih => intro st; simp only [ppInner]; rw [ih]

theorem ppInner_node_info (kn : String) (ety cN : Nat) (pairs : List (Nat × String)) :
    ∀ (gs : List (Nat × String)) (st : PPState),
      (ppInner kn ety cN pairs gs st).node_info
        = st.node_info ++ gs.map (fun ju => [(kn, ju.2)]) := by
  intro gs
  induction gs with
  | nil => intro st; simp [ppInner]
  | cons ju rest ih =>
    intro st
    simp only [ppInner, List.map_cons]
    rw [ih]
    simp [List.append_assoc]

theorem outDsts_append (p ty : Nat) :
    ∀ (s1 t1 d1 s2 t2 d2 : List Nat), s1.length = t1.length → s1.length = d1.length →
      outDsts p ty (s1 ++ s2) (t1 ++ t2) (d1 ++ d2)
        = outDsts p ty s1 t1 d1 ++ outDsts p ty s2 t2 d2 := by
  intro s1
  induction s1 with
  | nil =>
    intro t1 d1 s2 t2 d2 h1 h2
    have ht : t1 = [] := List.length_eq_zero.mp h1.symm
    have hd : d1 = [] := List.length_eq_zero.mp h2.symm
    subst ht; subst hd
    simp [outDsts]
  | cons a s ih =>
    intro t1 d1 s2 t2 d2 h1 h2
    cases t1 with
    | nil => simp at h1
    | cons b t =>
      cases d1 with
      | nil => simp at h2
      | cons c d =>
        simp only [List.cons_append, outDsts, List.append_eq]
        rw [ih t d s2 t2 d2 (by simpa using h1) (by simpa using h2), List.append_assoc]

theorem outDsts_all_ne (p ty : Nat) :
    ∀ (s t d : List Nat), (∀ x ∈ t, x ≠ ty) → outDsts p ty s t d = [] := by
  intro s
  induction s with
  | nil => intro t d _; rfl
  | cons a s ih =>
    intro t d h
    cases t with
    | nil => rfl
    | cons b t =>
      cases d with
      | nil => rfl
      | cons c d =>
        simp only [outDsts]
        rw [if_neg (fun hc => h b (List.mem_cons_self b t) hc.2),
          ih t d (fun x hx => h x (List.mem_cons_of_mem b hx))]
        rfl

theorem outDsts_replicate (p ty : Nat) :
    ∀ (ids : List Nat) (dj : Nat),
      outDsts p ty ids (List.replicate ids.length ty) (List.replicate ids.length dj)
        = (ids.filter (fun x => decide (x = p))).map (fun _ => dj) := by
  intro ids
  induction ids with
  | nil => intro dj; rfl
  | cons a as ih =>
    intro dj
    simp only [List.length_cons, List.replicate_succ, outDsts, List.filter_cons]
    by_cases hap : a = p
    · simp [hap, ih dj]
    · simp [hap, ih dj]

theorem filter_eq_of_nodup (p : Nat) :
    ∀ (l : List Nat), l.Nodup →
      l.filter (fun x => decide (x = p)) = if p ∈ l then [p] else [] := by
  intro l
  induction l with
  | nil => intro _; simp
  | cons a as ih =>
    intro hnd
    obtain ⟨hna, hnd'⟩ := List.nodup_cons.mp hnd
    simp only [List.filter_cons]
    by_cases hap : a = p
    · subst hap
      have : a ∉ as := hna
      simp [ih hnd', this]
    · have hpa : p = a ↔ False := ⟨fun h => hap h.symm, False.elim⟩
      simp [hap, ih hnd', List.mem_cons, hpa]

theorem metaPairsF_keys_sublist (k : String) :
    ∀ (l : List (Nat × List (String × String))),
      List.Sublist
        ((l.filterMap (fun pr => (pr.2.lookup k).map (fun v => (pr.1, processBrand v)))).map
          Prod.fst)
        (l.map Prod.fst) := by
  intro l
  induction l with
  | nil => simp
  | cons a l ih =>
    cases h : a.2.lookup k with
    | none =>
      simp only [List.filterMap_cons, h, List.map_cons]
      exact ih.cons a.1
    | some v =>
      simp only [List.filterMap_cons, h, Option.map_some, List.map_cons]
      exact ih.cons₂ a.1

theorem metaPairs_keys_nodup (ninfo : List (List (String × String))) (k : String) :
    ((metaPairs ninfo k).map Prod.fst).Nodup := by
  have hsub := metaPairsF_keys_sublist k ninfo.enum
  refine hsub.nodup ?_
  rw [List.enum_map_fst]
  exact List.nodup_range _

theorem enumFrom_getq {α : Type} :
    ∀ (l : List α) (n i : Nat),
      (l.enumFrom n).get? i = (l.get? i).map (fun a => (n + i, a)) := by
  intro l
  induction l with
  | nil => intro n i; simp
  | cons x xs ih =>
    intro n i
    cases i with
    | zero => simp [List.enumFrom]
    | succ j =>
      simp only [List.enumFrom, List.get?_cons_succ, ih (n + 1) j]
      cases hx : xs.get? j with
      | none => simp
      | some a =>
        have harith : n + 1 + j = n + (j + 1) := by omega
        simp only [harith]

theorem mem_enum_of_getq {α : Type} (l : List α) (p : Nat) (a : α)
    (h : l.get? p = some a) : (p, a) ∈ l.enum := by
  have he := enumFrom_getq l 0 p
  rw [h] at he
  simp only [Option.map_some', Nat.zero_add] at he
  exact List.get?_mem he

theorem getq_of_mem_enum {α : Type} (l : List α) (j : Nat) (a : α)
    (h : (j, a) ∈ l.enum) : l.get? j = some a := by
  obtain ⟨i, hi⟩ := List.mem_iff_get?.mp h
  simp only [List.enum] at hi
  rw [enumFrom_getq l 0 i] at hi
  cases hx : l.get? i with
  | none => rw [hx] at hi; cases hi
  | some b =>
    rw [hx] at hi
    have hi' : ((0 + i : Nat), b) = (j, a) := Option.some.inj hi
    have h1 : i = j := by
      have := congrArg Prod.fst hi'
      simpa using this
    have h2 : b = a := congrArg Prod.snd hi'
    rw [← h1, hx, h2]

theorem metaPairs_mem (ninfo : List (List (String × String))) (k : String)
    (p : Nat) (rec : List (String × String)) (b : String)
    (hrec : ninfo.get? p = some rec) (hb : rec.lookup k = some b) :
    (p, processBrand b) ∈ metaPairs ninfo k := by
  unfold metaPairs
  refine List.mem_filterMap.mpr ⟨(p, rec), mem_enum_of_getq ninfo p rec hrec, ?_⟩
  simp [hb]

theorem keys_nodup_val_eq :
    ∀ (pairs : List (Nat × String)), (pairs.map Prod.fst).Nodup →
      ∀ (p : Nat) (u v : String), (p, u) ∈ pairs → (p, v) ∈ pairs → u = v := by
  intro pairs
  induction pairs with
  | nil => intro _ p u v h; cases h
  | cons a l ih =>
    intro hnd p u v hu hv
    simp only [List.map_cons] at hnd
    obtain ⟨hna, hnd'⟩ := List.nodup_cons.mp hnd
    rcases List.mem_cons.mp hu with hu | hu <;> rcases List.mem_cons.mp hv with hv | hv
    · rw [← hu] at hv; exact (Prod.mk.injEq _ _ _ _ ▸ hv.symm).2
    · exfalso
      exact hna (hu ▸ List.mem_map.mpr ⟨(p, v), hv, rfl⟩)
    · exfalso
      exact hna (hv ▸ List.mem_map.mpr ⟨(p, u), hu, rfl⟩)
    · exact ih hnd' p u v hu hv

theorem mem_ids_iff (pairs : List (Nat × String)) (u : String) (p : Nat) :
    p ∈ (pairs.filter (fun pv => pv.2 == u)).map Prod.fst ↔ (p, u) ∈ pairs := by
  rw [List.mem_map]
  constructor
  · rintro ⟨pv, hpv, rfl⟩
    obtain ⟨hmem, hval⟩ := List.mem_filter.mp hpv
    have hv2 : pv.2 = u := by simpa using hval
    rw [← hv2]
    simpa using hmem
  · intro h
    exact ⟨(p, u), List.mem_filter.mpr ⟨h, by simp⟩, rfl⟩

theorem ids_nodup (pairs : List (Nat × String)) (hk : (pairs.map Prod.fst).Nodup)
    (u : String) : ((pairs.filter (fun pv => pv.2 == u)).map Prod.fst).Nodup :=
  ((List.filter_sublist pairs).map Prod.fst).nodup hk

/-- The edge destinations contributed for entity `p` by the value groups `gs`:
one edge to synthetic node `curN + j` for the (at most one) group `(j, u)`
whose value matches `p`'s pair. -/
def gsContrib (pairs : List (Nat × String)) (curN p : Nat) :
    List (Nat × String) → List Nat
  | [] => []
  | ju :: rest =>
    (if (p, ju.2) ∈ pairs then [curN + ju.1] else []) ++ gsContrib pairs curN p rest

theorem ppInner_edge_lengths (kn : String) (ety cN : Nat) (pairs : List (Nat × String)) :
    ∀ (gs : List (Nat × String)) (st : PPState),
      st.edge_src.length = st.edge_types.length →
      st.edge_src.length = st.edge_dst.length →
      (ppInner kn ety cN pairs gs st).edge_src.length
          = (ppInner kn ety cN pairs gs st).edge_types.length
        ∧ (ppInner kn ety cN pairs gs st).edge_src.length
          = (ppInner kn ety cN pairs gs st).edge_dst.length := by
  intro gs
  induction gs with
  | nil => intro st h1 h2; exact ⟨h1, h2⟩
  | cons ju rest ih =>
    intro st h1 h2
    simp only [ppInner]
    exact ih _ (by simp [h1]) (by simp [h2])

theorem ppInner_outDsts (kn : String) (ty cN : Nat) (pairs : List (Nat × String))
    (p : Nat) (hk : (pairs.map Prod.fst).Nodup) :
    ∀ (gs : List (Nat × String)) (st : PPState),
      st.edge_src.length = st.edge_types.length →
      st.edge_src.length = st.edge_dst.length →
      stOutDsts (ppInner kn ty cN pairs gs st) p ty
        = stOutDsts st p ty ++ gsContrib pairs cN p gs := by
  intro gs
  induction gs with
  | nil => intro st _ _; simp [ppInner, gsContrib]
  | cons ju rest ih =>
    intro st h1 h2
    simp only [ppInner, gsContrib]
    set ids := (pairs.filter (fun pv => pv.2 == ju.2)).map Prod.fst with hids
    rw [ih _ (by simp [h1]) (by simp [h2])]
    have hout : stOutDsts
        { st with
          node_info := st.node_info ++ [[(kn, ju.2)]],
          edge_src := st.edge_src ++ ids,
          edge_dst := st.edge_dst ++ List.replicate ids.length (cN + ju.1),
          edge_types := st.edge_types ++ List.replicate ids.length ty } p ty
        = stOutDsts st p ty
          ++ (ids.filter (fun x => decide (x = p))).map (fun _ => cN + ju.1) := by
      unfold stOutDsts
      exact (outDsts_append p ty st.edge_src st.edge_types st.edge_dst ids
          (List.replicate ids.length ty) (List.replicate ids.length (cN + ju.1)) h1 h2).trans
        (by rw [outDsts_replicate])
    rw [hout, List.append_assoc]
    congr 1
    congr 1
    rw [filter_eq_of_nodup p ids (ids_nodup pairs hk ju.2)]
    by_cases hmem : p ∈ ids
    · rw [if_pos hmem, if_pos ((mem_ids_iff pairs ju.2 p).mp hmem)]
      rfl
    · rw [if_neg hmem, if_neg (fun hc => hmem ((mem_ids_iff pairs ju.2 p).mpr hc))]
      rfl

theorem gsContrib_all_out (pairs : List (Nat × String)) (cN p : Nat) :
    ∀ (gs : List (Nat × String)), (∀ ju ∈ gs, (p, ju.2) ∉ pairs) →
      gsContrib pairs cN p gs = [] := by
  intro gs
  induction gs with
  | nil => intro _; rfl
  | cons ju rest ih =>
    intro h
    simp only [gsContrib]
    rw [if_neg (h ju (List.mem_cons_self ju rest)),
      ih (fun x hx => h x (List.mem_cons_of_mem ju hx))]
    rfl

theorem gsContrib_enumFrom_singleton (pairs : List (Nat × String)) (cN p : Nat)
    (v : String) (hv : ∀ u, (p, u) ∈ pairs ↔ u = v) :
    ∀ (u : List String) (n : Nat), u.Nodup → v ∈ u →
      ∃ j, u.get? j = some v
        ∧ gsContrib pairs cN p (u.enumFrom n) = [cN + (n + j)] := by
  intro u
  induction u with
  | nil => intro n _ hmem; cases hmem
  | cons a tl ih =>
    intro n hnd hmem
    obtain ⟨hna, hnd'⟩ := List.nodup_cons.mp hnd
    by_cases hav : a = v
    · subst hav
      refine ⟨0, rfl, ?_⟩
      simp only [List.enumFrom, gsContrib]
      rw [if_pos ((hv a).mpr rfl)]
      rw [gsContrib_all_out pairs cN p _ ?_]
      · simp
      · intro ju hju hmemp
        have hjv : ju.2 = a := (hv ju.2).mp hmemp
        have hju2 : ju.2 ∈ tl := mem_of_mem_enumFrom tl (n + 1) ju hju
        rw [hjv] at hju2
        exact hna hju2
    · have hmem' : v ∈ tl := by
        rcases List.mem_cons.mp hmem with h | h
        · exact absurd h.symm hav
        · exact h
      obtain ⟨j, hj, hcontrib⟩ := ih (n + 1) hnd' hmem'
      refine ⟨j + 1, by simpa using hj, ?_⟩
      simp only [List.enumFrom, gsContrib]
      rw [if_neg (fun hc => hav ((hv a).mp hc)), hcontrib]
      have : n + 1 + j = n + (j + 1) := by omega
      rw [this]
      rfl

set_option maxHeartbeats 1000000 in
/-- Core of C3, stated over one `ppStep` iteration (to which
`amazonPostProcess ["brand"]` reduces). -/
theorem ppStep_has_brand_edge (n_e n_n : Nat) (st : PPState)
    (h1 : st.edge_src.length = st.edge_types.length)
    (h2 : st.edge_src.length = st.edge_dst.length)
    (hty : ∀ t ∈ st.edge_types, t ≠ n_e)
    (p : Nat) (rec : List (String × String)) (b : String)
    (hrec : st.node_info.get? p = some rec)
    (hb : rec.lookup "brand" = some b) :
    ∃ j, (sortedUnique ((metaPairs st.node_info "brand").map Prod.snd)).get? j
          = some (processBrand b)
      ∧ stOutDsts (ppStep n_e n_n 0 "brand" st) p n_e = [st.node_info.length + j]
      ∧ (ppStep n_e n_n 0 "brand" st).node_info.get? (st.node_info.length + j)
          = some [("brand_name", processBrand b)] := by
  have hk : ((metaPairs st.node_info "brand").map Prod.fst).Nodup :=
    metaPairs_keys_nodup st.node_info "brand"
  have hpv : (p, processBrand b) ∈ metaPairs st.node_info "brand" :=
    metaPairs_mem st.node_info "brand" p rec b hrec hb
  have hv : ∀ u, (p, u) ∈ metaPairs st.node_info "brand" ↔ u = processBrand b := fun u =>
    ⟨fun h => keys_nodup_val_eq _ hk p u (processBrand b) h hpv, fun h => h ▸ hpv⟩
  have hvu : processBrand b ∈ sortedUnique ((metaPairs st.node_info "brand").map Prod.snd) :=
    (sortedUnique_mem _ _).mpr (List.mem_map.mpr ⟨(p, processBrand b), hpv, rfl⟩)
  obtain ⟨j, hj, hcontrib⟩ :=
    gsContrib_enumFrom_singleton (metaPairs st.node_info "brand") st.node_info.length p
      (processBrand b) hv (sortedUnique ((metaPairs st.node_info "brand").map Prod.snd)) 0
      (sortedUnique_nodup _) hvu
  refine ⟨j, hj, ?_, ?_⟩
  · have hstep : stOutDsts (ppStep n_e n_n 0 "brand" st) p (n_e + 0)
        = stOutDsts (ppDicts n_e n_n 0 "brand" st) p (n_e + 0)
          ++ gsContrib (metaPairs st.node_info "brand") st.node_info.length p
              (sortedUnique ((metaPairs st.node_info "brand").map Prod.snd)).enum :=
      ppInner_outDsts ("brand" ++ "_name") (n_e + 0) st.node_info.length
        (metaPairs st.node_info "brand") p hk
        (sortedUnique ((metaPairs st.node_info "brand").map Prod.snd)).enum
        (ppDicts n_e n_n 0 "brand" st) h1 h2
    have hempty : stOutDsts (ppDicts n_e n_n 0 "brand" st) p (n_e + 0) = [] :=
      outDsts_all_ne p (n_e + 0) st.edge_src st.edge_types st.edge_dst
        (fun x hx => by simpa using hty x hx)
    have hcontrib' : gsContrib (metaPairs st.node_info "brand") st.node_info.length p
        (sortedUnique ((metaPairs st.node_info "brand").map Prod.snd)).enum
        = [st.node_info.length + (0 + j)] := hcontrib
    have hgoal : stOutDsts (ppStep n_e n_n 0 "brand" st) p (n_e + 0)
        = [st.node_info.length + j] := by
      rw [hstep, hempty, hcontrib']
      simp
    simpa using hgoal
  · have hinfo : (ppStep n_e n_n 0 "brand" st).node_info
        = st.node_info
          ++ (sortedUnique ((metaPairs st.node_info "brand").map Prod.snd)).enum.map
              (fun ju => [("brand" ++ "_name", ju.2)]) :=
      ppInner_node_info ("brand" ++ "_name") (n_e + 0) st.node_info.length
        (metaPairs st.node_info "brand")
        (sortedUnique ((metaPairs st.node_info "brand").map Prod.snd)).enum
        (ppDicts n_e n_n 0 "brand" st)
    rw [hinfo, List.get?_append_right (by omega)]
    have hsub : st.node_info.length + j - st.node_info.length = j := by omega
    rw [hsub, List.get?_map]
    have henum : (sortedUnique ((metaPairs st.node_info "brand").map Prod.snd)).enum.get? j
        = some (j, processBrand b) := by
      show (List.enumFrom 0 (sortedUnique ((metaPairs st.node_info "brand").map Prod.snd))).get? j
          = some (j, processBrand b)
      rw [enumFrom_getq, hj]
      simp
    rw [henum]
    have hkn : ("brand" ++ "_name" : String) = "brand_name" := rfl
    simp only [Option.map_some', hkn]

/-- C3: after `post_process` with `meta_link_types = ["brand"]`, on a
well-formed input graph (parallel edge arrays, existing edge types within the
edge-type dictionary), every original entity `p` whose node record has a
`brand` attribute has exactly one outgoing edge of the new `has_brand` type
(whose id is the pre-augmentation edge-type count), and the destination's
node record is exactly `brand_name ↦ _process_brand(brand)`. -/
theorem c3_meta_link_has_brand (st : PPState)
    (h1 : st.edge_src.length = st.edge_types.length)
    (h2 : st.edge_src.length = st.edge_dst.length)
    (hty : ∀ t ∈ st.edge_types, t < st.edge_type_dict.length)
    (p : Nat) (rec : List (String × String)) (b : String)
    (hrec : st.node_info.get? p = some rec)
    (hb : rec.lookup "brand" = some b) :
    ∃ d, stOutDsts (amazonPostProcess ["brand"] st) p st.edge_type_dict.length = [d]
      ∧ (amazonPostProcess ["brand"] st).node_info.get? d
          = some [("brand_name", processBrand b)] := by
  obtain ⟨j, _, hout, hnode⟩ :=
    ppStep_has_brand_edge st.edge_type_dict.length st.node_type_dict.length st h1 h2
      (fun t ht => Nat.ne_of_lt (hty t ht)) p rec b hrec hb
  exact ⟨st.node_info.length + j, hout, hnode⟩

/-- C3 (witness): a two-node graph in which node 0 has brand `"Acme"`: after
augmentation it has the single `has_brand` edge (type 2) to the synthetic
node whose record is `brand_name ↦ "Acme"`. -/
theorem c3_meta_link_has_brand_witness :
    ∃ d, stOutDsts (amazonPostProcess ["brand"]
          { node_info := [[("brand", "Acme")], [("title", "t")]],
            edge_src := [0], edge_dst := [1], edge_types := [0],
            edge_type_dict := [(0, "also_buy"), (1, "also_view")],
            node_type_dict := [(0, "product")],
            node_types := [0, 0] }) 0 2 = [d]
      ∧ (amazonPostProcess ["brand"]
          { node_info := [[("brand", "Acme")], [("title", "t")]],
            edge_src := [0], edge_dst := [1], edge_types := [0],
            edge_type_dict := [(0, "also_buy"), (1, "also_view")],
            node_type_dict := [(0, "product")],
            node_types := [0, 0] }).node_info.get? d
          = some [("brand_name", processBrand "Acme")] :=
  c3_meta_link_has_brand
    { node_info := [[("brand", "Acme")], [("title", "t")]],
      edge_src := [0], edge_dst := [1], edge_types := [0],
      edge_type_dict := [(0, "also_buy"), (1, "also_view")],
      node_type_dict := [(0, "product")],
      node_types := [0, 0] }
    rfl rfl (by decide) 0 [("brand", "Acme")] "Acme" rfl rfl

/-! ### Type-id bookkeeping of the augmentation loop -/

theorem dictSetNat_fresh (d : List (Nat × String)) (key : Nat) (v : String)
    (h : ∀ kv ∈ d, kv.1 ≠ key) : dictSetNat d key v = d ++ [(key, v)] := by
  unfold dictSetNat
  rw [if_neg]
  intro hc
  obtain ⟨kv, hkv, hbeq⟩ := List.any_eq_true.mp hc
  exact h kv hkv (by simpa using hbeq)

theorem lookup_append_of_ne (key : Nat) :
    ∀ (d1 d2 : List (Nat × String)), (∀ kv ∈ d1, kv.1 ≠ key) →
      (d1 ++ d2).lookup key = d2.lookup key := by
  intro d1
  induction d1 with
  | nil => intro d2 _; rfl
  | cons a d ih =>
    intro d2 h
    cases a with
    | mk ka va =>
      have hne : (key == ka) = false := by
        simpa using Ne.symm (h (ka, va) (List.mem_cons_self _ _))
      simp only [List.cons_append, List.lookup, hne, List.append_eq]
      exact ih d2 (fun kv hkv => h kv (List.mem_cons_of_mem _ hkv))

theorem lookup_cons_self (key : Nat) (v : String) (d : List (Nat × String)) :
    ((key, v) :: d).lookup key = some v := by
  simp [List.lookup]

theorem ppStep_node_type_dict (n_e n_n i : Nat) (k : String) (st : PPState)
    (h : st.node_type_dict.map Prod.fst = List.range (n_n + i)) :
    (ppStep n_e n_n i k st).node_type_dict = st.node_type_dict ++ [(n_n + i, k)] := by
  have hstep : (ppStep n_e n_n i k st).node_type_dict
      = dictSetNat st.node_type_dict (n_n + i) k := by
    show (ppStepInner n_e n_n i k st).node_type_dict = _
    exact ppInner_node_type_dict _ _ _ _ _ _
  rw [hstep]
  apply dictSetNat_fresh
  intro kv hkv
  have hmem : kv.1 ∈ st.node_type_dict.map Prod.fst := List.mem_map.mpr ⟨kv, hkv, rfl⟩
  rw [h] at hmem
  have := List.mem_range.mp hmem
  omega

theorem ppStep_edge_type_dict (n_e n_n i : Nat) (k : String) (st : PPState)
    (h : st.edge_type_dict.map Prod.fst = List.range (n_e + i)) :
    (ppStep n_e n_n i k st).edge_type_dict
      = st.edge_type_dict ++ [(n_e + i, "has_" ++ k)] := by
  have hstep : (ppStep n_e n_n i k st).edge_type_dict
      = dictSetNat st.edge_type_dict (n_e + i) ("has_" ++ k) := by
    show (ppStepInner n_e n_n i k st).edge_type_dict = _
    exact ppInner_edge_type_dict _ _ _ _ _ _
  rw [hstep]
  apply dictSetNat_fresh
  intro kv hkv
  have hmem : kv.1 ∈ st.edge_type_dict.map Prod.fst := List.mem_map.mpr ⟨kv, hkv, rfl⟩
  rw [h] at hmem
  have := List.mem_range.mp hmem
  omega

theorem ppStep_node_info_eq (n_e n_n i : Nat) (k : String) (st : PPState) :
    (ppStep n_e n_n i k st).node_info
      = st.node_info
        ++ (sortedUnique ((metaPairs st.node_info k).map Prod.snd)).enum.map
            (fun ju => [(k ++ "_name", ju.2)]) :=
  ppInner_node_info (k ++ "_name") (n_e + i) st.node_info.length
    (metaPairs st.node_info k)
    (sortedUnique ((metaPairs st.node_info k).map Prod.snd)).enum
    (ppDicts n_e n_n i k st)

theorem ppStep_node_types_len (n_e n_n i : Nat) (k : String) (st : PPState)
    (h : st.node_types.length = st.node_info.length) :
    (ppStep n_e n_n i k st).node_types.length
      = (ppStep n_e n_n i k st).node_info.length := by
  have h1 : (ppStep n_e n_n i k st).node_types
      = st.node_types
        ++ List.replicate (sortedUnique ((metaPairs st.node_info k).map Prod.snd)).length
            (n_n + i) := by
    show (ppStepInner n_e n_n i k st).node_types ++ _ = _
    rw [show (ppStepInner n_e n_n i k st).node_types = st.node_types from
      ppInner_node_types _ _ _ _ _ _]
  rw [h1, ppStep_node_info_eq n_e n_n i k st]
  simp [List.enum_length, h]

theorem ppGo_spec (n_e n_n : Nat) :
    ∀ (ks : List String) (i : Nat) (st : PPState),
      st.node_type_dict.map Prod.fst = List.range (n_n + i) →
      st.edge_type_dict.map Prod.fst = List.range (n_e + i) →
      st.node_types.length = st.node_info.length →
      ((ppGo n_e n_n i ks st).node_type_dict.map Prod.fst
          = List.range (n_n + i + ks.length))
      ∧ ((ppGo n_e n_n i ks st).edge_type_dict.map Prod.fst
          = List.range (n_e + i + ks.length))
      ∧ (∀ j k, ks.get? j = some k →
          (ppGo n_e n_n i ks st).node_type_dict.lookup (n_n + (i + j)) = some k
          ∧ (ppGo n_e n_n i ks st).edge_type_dict.lookup (n_e + (i + j))
              = some ("has_" ++ k))
      ∧ (∃ tail, (ppGo n_e n_n i ks st).node_info = st.node_info ++ tail)
      ∧ ((ppGo n_e n_n i ks st).node_types.length
          = (ppGo n_e n_n i ks st).node_info.length)
      ∧ (∃ dtn, (ppGo n_e n_n i ks st).node_type_dict = st.node_type_dict ++ dtn
            ∧ ∀ kv ∈ dtn, n_n + i ≤ kv.1)
      ∧ (∃ dte, (ppGo n_e n_n i ks st).edge_type_dict = st.edge_type_dict ++ dte
            ∧ ∀ kv ∈ dte, n_e + i ≤ kv.1) := by
  intro ks
  induction ks with
  | nil =>
    intro i st hn he hl
    refine ⟨by simpa using hn, by simpa using he, ?_, ⟨[], by simp [ppGo]⟩, hl,
      ⟨[], by simp [ppGo]⟩, ⟨[], by simp [ppGo]⟩⟩
    intro j k hjk
    simp at hjk
  | cons k ks ih =>
    intro i st hn he hl
    have hstepn := ppStep_node_type_dict n_e n_n i k st hn
    have hstepe := ppStep_edge_type_dict n_e n_n i k st he
    have hstepinfo := ppStep_node_info_eq n_e n_n i k st
    have hstepl := ppStep_node_types_len n_e n_n i k st hl
    have hn1 : (ppStep n_e n_n i k st).node_type_dict.map Prod.fst
        = List.range (n_n + (i + 1)) := by
      rw [hstepn, List.map_append, hn]
      simp only [List.map_cons, List.map_nil]
      rw [← List.range_succ]
      rfl
    have he1 : (ppStep n_e n_n i k st).edge_type_dict.map Prod.fst
        = List.range (n_e + (i + 1)) := by
      rw [hstepe, List.map_append, he]
      simp only [List.map_cons, List.map_nil]
      rw [← List.range_succ]
      rfl
    obtain ⟨ihn, ihe, ihlookup, ⟨tail2, ihtail⟩, ihlen, ⟨dtn2, ihdtn, ihdtnge⟩,
      ⟨dte2, ihdte, ihdtege⟩⟩ := ih (i + 1) (ppStep n_e n_n i k st) hn1 he1 hstepl
    have hgo : ppGo n_e n_n i (k :: ks) st = ppGo n_e n_n (i + 1) ks (ppStep n_e n_n i k st) :=
      rfl
    rw [hgo]
    have hidx : ∀ m : Nat, m + (i + 1) + ks.length = m + i + (k :: ks).length := by
      intro m; simp only [List.length_cons]; omega
    refine ⟨by rw [ihn, hidx], by rw [ihe, hidx], ?_, ?_, ihlen, ?_, ?_⟩
    · intro j kk hjk
      cases j with
      | zero =>
        have hkk : k = kk := by simpa using hjk
        subst hkk
        have hfreshn : ∀ kv ∈ st.node_type_dict, kv.1 ≠ n_n + i := by
          intro kv hkv
          have hmem : kv.1 ∈ st.node_type_dict.map Prod.fst := List.mem_map.mpr ⟨kv, hkv, rfl⟩
          rw [hn] at hmem
          have := List.mem_range.mp hmem
          omega
        have hfreshe : ∀ kv ∈ st.edge_type_dict, kv.1 ≠ n_e + i := by
          intro kv hkv
          have hmem : kv.1 ∈ st.edge_type_dict.map Prod.fst := List.mem_map.mpr ⟨kv, hkv, rfl⟩
          rw [he] at hmem
          have := List.mem_range.mp hmem
          omega
        constructor
        · rw [ihdtn, hstepn, List.append_assoc, show n_n + (i + 0) = n_n + i from by omega,
            lookup_append_of_ne (n_n + i) st.node_type_dict _ hfreshn,
            List.singleton_append, lookup_cons_self]
        · rw [ihdte, hstepe, List.append_assoc, show n_e + (i + 0) = n_e + i from by omega,
            lookup_append_of_ne (n_e + i) st.edge_type_dict _ hfreshe,
            List.singleton_append, lookup_cons_self]
      | succ j' =>
        have hres := ihlookup j' kk (by simpa using hjk)
        have hi1 : n_n + (i + (j' + 1)) = n_n + ((i + 1) + j') := by omega
        have hi2 : n_e + (i + (j' + 1)) = n_e + ((i + 1) + j') := by omega
        rw [hi1, hi2]
        exact hres
    · exact ⟨(sortedUnique ((metaPairs st.node_info k).map Prod.snd)).enum.map
          (fun ju => [(k ++ "_name", ju.2)]) ++ tail2,
        by rw [ihtail, hstepinfo, List.append_assoc]⟩
    · refine ⟨(n_n + i, k) :: dtn2, ?_, ?_⟩
      · rw [ihdtn, hstepn, List.append_assoc, List.singleton_append]
      · intro kv hkv
        rcases List.mem_cons.mp hkv with hkv | hkv
        · rw [hkv]
        · have := ihdtnge kv hkv
          omega
    · refine ⟨(n_e + i, "has_" ++ k) :: dte2, ?_, ?_⟩
      · rw [ihdte, hstepe, List.append_assoc, List.singleton_append]
      · intro kv hkv
        rcases List.mem_cons.mp hkv with hkv | hkv
        · rw [hkv]
        · have := ihdtege kv hkv
          omega

/-- C8: `post_process` over an ordered kind list, on a graph whose type
dictionaries have contiguous keys `0..count-1`, assigns the kind at position
`i` the node-type id `base_node_type_count + i` and the edge-type id
`base_edge_type_count + i` labeled `has_<kind>`; both dictionaries stay
contiguous from 0 with no collisions, the original node records keep their
dense ids (synthetic records are appended after them), and the node-type
assignment stays parallel to the node records. -/
theorem c8_augmentation_type_ids (st : PPState) (kinds : List String)
    (hn : st.node_type_dict.map Prod.fst = List.range st.node_type_dict.length)
    (he : st.edge_type_dict.map Prod.fst = List.range st.edge_type_dict.length)
    (hl : st.node_types.length = st.node_info.length) :
    ((amazonPostProcess kinds st).node_type_dict.map Prod.fst
        = List.range (st.node_type_dict.length + kinds.length))
    ∧ ((amazonPostProcess kinds st).edge_type_dict.map Prod.fst
        = List.range (st.edge_type_dict.length + kinds.length))
    ∧ (∀ i k, kinds.get? i = some k →
        (amazonPostProcess kinds st).node_type_dict.lookup (st.node_type_dict.length + i)
            = some k
        ∧ (amazonPostProcess kinds st).edge_type_dict.lookup (st.edge_type_dict.length + i)
            = some ("has_" ++ k))
    ∧ ((amazonPostProcess kinds st).node_info.take st.node_info.length = st.node_info)
    ∧ ((amazonPostProcess kinds st).node_types.length
        = (amazonPostProcess kinds st).node_info.length) := by
  obtain ⟨hmn, hme, hlook, ⟨tail, htail⟩, hlen, _, _⟩ :=
    ppGo_spec st.edge_type_dict.length st.node_type_dict.length kinds 0 st
      (by simpa using hn) (by simpa using he) hl
  refine ⟨by simpa using hmn, by simpa using hme, ?_, ?_, hlen⟩
  · intro i k hik
    have := hlook i k hik
    simpa using this
  · show (ppGo st.edge_type_dict.length st.node_type_dict.length 0 kinds st).node_info.take
        st.node_info.length = st.node_info
    rw [htail, List.take_left]

/-- C8 (witness): augmenting a one-product graph with kinds
`["brand", "category"]` extends the node-type dictionary keys to `0, 1, 2` and
the edge-type dictionary keys to `0, 1, 2, 3`, with the expected labels at the
expected ids. -/
theorem c8_augmentation_type_ids_witness :
    ((amazonPostProcess ["brand", "category"]
        { node_info := [[("brand", "Acme"), ("category", "c")]],
          edge_src := [], edge_dst := [], edge_types := [],
          edge_type_dict := [(0, "also_buy"), (1, "also_view")],
          node_type_dict := [(0, "product")],
          node_types := [0] }).node_type_dict.map Prod.fst = List.range (1 + 2))
    ∧ ((amazonPostProcess ["brand", "category"]
        { node_info := [[("brand", "Acme"), ("category", "c")]],
          edge_src := [], edge_dst := [], edge_types := [],
          edge_type_dict := [(0, "also_buy"), (1, "also_view")],
          node_type_dict := [(0, "product")],
          node_types := [0] }).edge_type_dict.map Prod.fst = List.range (2 + 2))
    ∧ (∀ i k, (["brand", "category"] : List String).get? i = some k →
        (amazonPostProcess ["brand", "category"]
          { node_info := [[("brand", "Acme"), ("category", "c")]],
            edge_src := [], edge_dst := [], edge_types := [],
            edge_type_dict := [(0, "also_buy"), (1, "also_view")],
            node_type_dict := [(0, "product")],
            node_types := [0] }).node_type_dict.lookup (1 + i) = some k
        ∧ (amazonPostProcess ["brand", "category"]
          { node_info := [[("brand", "Acme"), ("category", "c")]],
            edge_src := [], edge_dst := [], edge_types := [],
            edge_type_dict := [(0, "also_buy"), (1, "also_view")],
            node_type_dict := [(0, "product")],
            node_types := [0] }).edge_type_dict.lookup (2 + i) = some ("has_" ++ k))
    ∧ ((amazonPostProcess ["brand", "category"]
        { node_info := [[("brand", "Acme"), ("category", "c")]],
          edge_src := [], edge_dst := [], edge_types := [],
          edge_type_dict := [(0, "also_buy"), (1, "also_view")],
          node_type_dict := [(0, "product")],
          node_types := [0] }).node_info.take 1
        = [[("brand", "Acme"), ("category", "c")]])
    ∧ ((amazonPostProcess ["brand", "category"]
        { node_info := [[("brand", "Acme"), ("category", "c")]],
          edge_src := [], edge_dst := [], edge_types := [],
          edge_type_dict := [(0, "also_buy"), (1, "also_view")],
          node_type_dict := [(0, "product")],
          node_types := [0] }).node_types.length
        = (amazonPostProcess ["brand", "category"]
        { node_info := [[("brand", "Acme"), ("category", "c")]],
          edge_src := [], edge_dst := [], edge_types := [],
          edge_type_dict := [(0, "also_buy"), (1, "also_view")],
          node_type_dict := [(0, "product")],
          node_types := [0] }).node_info.length) :=
  c8_augmentation_type_ids
    { node_info := [[("brand", "Acme"), ("category", "c")]],
      edge_src := [], edge_dst := [], edge_types := [],
      edge_type_dict := [(0, "also_buy"), (1, "also_view")],
      node_type_dict := [(0, "product")],
      node_types := [0] }
    ["brand", "category"] (by decide) (by decide) rfl

/-! ## `__getitem__` (amazon.py lines 198-208)

The method body is

    node_info = self.node_info[idx]
    try:
        dimensions, weight = node.details.dictionary.product_dimensions.split(" ; ")
        node_info["dimensions"], node_info["weight"] = dimensions, weight
    except:
        pass
    node = Node()
    register_node(node, node_info)
    return node

Inside the `try` block the local name `node` is read before its (only)
assignment two lines below, so in Python the read raises
`UnboundLocalError`, which the bare `except` swallows.  The local environment
is modelled explicitly: the local `node` holds `none` at the `try` block, and
a bound `node` would carry the parsed dimensions pair (the value of the
attribute chain split into exactly two parts, `none` when that parse would
fail with an `AttributeError`/`ValueError`). -/

/-- Reading a Python local: raises `UnboundLocalError` when unassigned. -/
def readLocal {α : Type} : Option α → Except String α
  | some v => .ok v
  | none => .error "UnboundLocalError"

/-- Python dict assignment `d[key] = v` for string keys. -/
def dictSetStr (d : List (String × String)) (key v : String) : List (String × String) :=
  if d.any (fun kv => kv.1 == key) then
    d.map (fun kv => if kv.1 == key then (key, v) else kv)
  else d ++ [(key, v)]

/-- The `try` block of `__getitem__`, with `node` the current value of the
local of that name (unassigned at this point in the real control flow). -/
def getItemTryBlock (node : Option (Option (String × String)))
    (node_info : List (String × String)) : Except String (List (String × String)) :=
  match readLocal node with
  | .error e => .error e
  | .ok dims =>
    match dims with
    | none => .error "AttributeError"
    | some dw => .ok (dictSetStr (dictSetStr node_info "dimensions" dw.1) "weight" dw.2)

/-- `__getitem__`: the record the returned node object is registered from —
the `try` block's update if it succeeded, the untouched `node_info[idx]`
otherwise.  The local `node` is unassigned (`none`) when the block runs. -/
def amazonGetItem (node_info : List (String × String)) : List (String × String) :=
  match getItemTryBlock none node_info with
  | .ok ni => ni
  | .error _ => node_info

/-- C10: for every node record, `__getitem__` returns a node carrying exactly
the attributes of `node_info[idx]` and leaves the record unchanged: the
dimensions/weight enrichment in its `try` block reads the local `node` before
assignment, so it always dies with `UnboundLocalError`, swallowed by the bare
`except`. -/
theorem c10_getitem_enrichment_dead :
    ∀ node_info : List (String × String),
      amazonGetItem node_info = node_info
      ∧ getItemTryBlock none node_info = .error "UnboundLocalError" :=
  fun _ => ⟨rfl, rfl⟩

end Stark
